import Mathlib

/-!
Shallow embedding of the StatCan WDS client (`statcan_wds/_core.py`) and of
the ingestion domain adapters (`ingestion/wds_data.py`, `ingestion/config.py`)
of the food-price-inflation repository, together with proofs about the
behaviour of spec expansion, coordinate building, vector resolution, tidy
assembly, cross-era stitching, pivot aggregation and column normalization.

Network calls are modelled by passing the provider's responses (metadata
catalogue, coordinate-resolution results, observation payloads) as explicit
arguments to the embedded functions; Python runtime errors (IndexError) are
modelled as `Option.none`, deliberate `raise` statements as `Except.error`.
-/

namespace FoodPrice

/-- Python `dict` modelled as an insertion-ordered association list:
inserting an existing key overwrites its value in place, a new key is
appended at the end. -/
def dinsert {α β : Type} [DecidableEq α] : List (α × β) → α → β → List (α × β)
  | [], k, v => [(k, v)]
  | (k', v') :: rest, k, v =>
    if k' = k then (k, v) :: rest else (k', v') :: dinsert rest k v

/-- Build a Python dict from an iteration of key-value pairs
(later pairs overwrite earlier ones, as in a dict comprehension). -/
def dictOf {α β : Type} [DecidableEq α] (ps : List (α × β)) : List (α × β) :=
  ps.foldl (fun d p => dinsert d p.1 p.2) []

/-- Python `d.get(k)` (and the test `k in d` is `(dlookup d k).isSome`). -/
def dlookup {α β : Type} [DecidableEq α] : List (α × β) → α → Option β
  | [], _ => none
  | (k', v') :: rest, k => if k' = k then some v' else dlookup rest k

/-- A value in a compact series spec: either a scalar member name or a list
of member names.  `expand_specs` normalizes a scalar via
`vals = v if isinstance(v, (list, tuple)) else [v]`. -/
inductive SpecVal : Type
  | one (s : String)
  | many (l : List String)
deriving DecidableEq, Repr

/-- The value list of a spec entry after scalar normalization. -/
def SpecVal.vals : SpecVal → List String
  | .one s => [s]
  | .many l => l

/-- `itertools.product(*value_lists)`: the cartesian product in which the
first list varies slowest; with no lists it yields one empty tuple. -/
def pyProduct : List (List String) → List (List String)
  | [] => [[]]
  | vs :: rest => vs.flatMap (fun v => (pyProduct rest).map (fun c => v :: c))

/-- `expand_specs` from `_core.py`: expand a compact spec (an ordered
sequence of single-key `{dimension name: value-or-list}` mappings) into the
cartesian product of single-valued Selections, via
`[dict(zip(keys, combo)) for combo in product(*value_lists)]`. -/
def expand_specs (series_spec : List (String × SpecVal)) : List (List (String × String)) :=
  (pyProduct (series_spec.map (fun p => p.2.vals))).map
    (fun combo => dictOf ((series_spec.map (fun p => p.1)).zip combo))

/-- A compact example spec used as the evaluation point for `expand_specs`. -/
def exSpec : List (String × SpecVal) :=
  [("Geography", SpecVal.many ["Quebec", "Canada"]),
   ("Trade", SpecVal.many ["Import", "Export"]),
   ("NAPCS", SpecVal.one "All merchandise")]

/-- One raw dimension record of the cube metadata returned by the provider:
`dimensionNameEn`, `dimensionPositionId`, and the member list
`{memberNameEn: memberId}`. -/
structure RawDim : Type where
  nameEn : String
  positionId : Nat
  members : List (String × Nat)
deriving DecidableEq, Repr

/-- The `dim_mapping` dict comprehension of `buildCoordinates` /
`previewDimensions`: `{dimensionNameEn: (positionId, {memberNameEn: memberId})}`. -/
def dimMapping (meta : List RawDim) : List (String × (Nat × List (String × Nat))) :=
  dictOf (meta.map (fun d => (d.nameEn, (d.positionId, dictOf d.members))))

/-- Python list item assignment `xs[i] = v` for a possibly negative index
`i`, with `none` for an `IndexError`. -/
def pySet (xs : List String) (i : Int) (v : String) : Option (List String) :=
  if 0 ≤ i then
    if i.toNat < xs.length then some (xs.set i.toNat v) else none
  else
    let j : Int := (xs.length : Int) + i
    if 0 ≤ j then some (xs.set j.toNat v) else none

/-- The inner loop of `buildCoordinates` over one Selection's items:
starting from slots `coords`, place each member id at slot `position - 1`.
Outer `none` is an uncaught `IndexError`; `some none` means a dimension or
member lookup failed and the Selection is dropped (`coords = None; break`);
`some (some slots)` is a fully resolved slot list. -/
def fillSlots (dm : List (String × (Nat × List (String × Nat)))) :
    List (String × String) → List String → Option (Option (List String))
  | [], coords => some (some coords)
  | (k, v) :: rest, coords =>
    match dlookup dm k with
    | none => some none
    | some (pos, values) =>
      match dlookup values v with
      | none => some none
      | some value =>
        match pySet coords ((pos : Int) - 1) (toString value) with
        | none => none
        | some coords' => fillSlots dm rest coords'

/-- The per-Selection body of `buildCoordinates`: `["0"] * 10`, fill the
slots, and join with `"."` on success. -/
def encodeSelection (dm : List (String × (Nat × List (String × Nat))))
    (series : List (String × String)) : Option (Option String) :=
  match fillSlots dm series (List.replicate 10 "0") with
  | none => none
  | some none => some none
  | some (some slots) => some (some (String.intercalate "." slots))

/-- The accumulation loop of `buildCoordinates` over the Selection list:
a dropped Selection (`some none`) is skipped, a resolved one appends its
coordinate, an `IndexError` aborts. -/
def coordsLoop (dm : List (String × (Nat × List (String × Nat)))) :
    List (List (String × String)) → Option (List String)
  | [] => some []
  | series :: rest =>
    match encodeSelection dm series with
    | none => none
    | some none => coordsLoop dm rest
    | some (some c) =>
      match coordsLoop dm rest with
      | none => none
      | some cs => some (c :: cs)

/-- The `{dimName: position}` map returned by `buildCoordinates`. -/
def dimMapOf (meta : List RawDim) : List (String × Nat) :=
  (dimMapping meta).map (fun p => (p.1, p.2.1))

/-- `buildCoordinates` from `_core.py` with the fetched metadata passed in:
returns the coordinate strings of the Selections that resolved, in order,
together with the `{dimensionNameEn: position}` map; `none` models an
uncaught `IndexError` (only possible for out-of-range positions). -/
def buildCoordinates (meta : List RawDim) (series_coords : List (List (String × String))) :
    Option (List String × List (String × Nat)) :=
  match coordsLoop (dimMapping meta) series_coords with
  | none => none
  | some cs => some (cs, dimMapOf meta)

/-- Every dimension position of the catalogue lies in the 10 coordinate
slots, so `coords[int(pos) - 1]` never raises. -/
def validPositions (meta : List RawDim) : Prop :=
  ∀ d ∈ meta, 1 ≤ d.positionId ∧ d.positionId ≤ 10

instance validPositionsDecidable (meta : List RawDim) : Decidable (validPositions meta) :=
  decidable_of_iff (∀ d ∈ meta, 1 ≤ d.positionId ∧ d.positionId ≤ 10) Iff.rfl

/-- The catalogue position a Selection item resolves to. -/
def selPos (dm : List (String × (Nat × List (String × Nat)))) (kv : String × String) :
    Option Nat :=
  (dlookup dm kv.1).map (fun p => p.1)

/-- The member identifier a Selection item resolves to. -/
def selId (dm : List (String × (Nat × List (String × Nat)))) (kv : String × String) :
    Option Nat :=
  (dlookup dm kv.1).bind (fun p => dlookup p.2 kv.2)

/-- A Selection item naming a dimension absent from the catalogue, or a
member absent from its dimension — the two `Warning:` branches of
`buildCoordinates`. -/
def badPair (dm : List (String × (Nat × List (String × Nat)))) (kv : String × String) :
    Prop :=
  match dlookup dm kv.1 with
  | none => True
  | some (_, values) => dlookup values kv.2 = none

/-- A small concrete catalogue: Geography at position 3, Trade at
position 1. -/
def exMeta : List RawDim :=
  [⟨"Geography", 3, [("Canada", 7), ("Quebec", 8)]⟩,
   ⟨"Trade", 1, [("Import", 4)]⟩]

/-- A concrete provider resolution for the `getVectorIds` witness: `"c1"`
resolves to the null-vector sentinel, `"c2"` to vector 5. -/
def exResolve : String → Nat × String :=
  fun c => if c = "c1" then (0, "dead") else (5, "Canada;Import")

/-- The two deliberate failure modes of `getVectorIds`: the empty-input
`raise` (`"Invalid coordinates..."`) and the all-invalid `raise`
(`"Failed to retrieve vectors..."`). -/
inductive WdsErr : Type
  | invalidQuery
  | unresolvableSelection
deriving DecidableEq, Repr

/-- `getVectorIds` from `_core.py` with the provider's per-coordinate
resolution passed in as `resolve : coordinate → (vectorId, SeriesTitleEn)`:
raises on an empty coordinate list, builds
`{vectorId: title for ... if vectorId != 0}`, and raises if that dict is
empty. -/
def getVectorIds (coords : List String) (resolve : String → Nat × String) :
    Except WdsErr (List (Nat × String)) :=
  if coords = [] then .error .invalidQuery
  else
    let series := coords.map resolve
    let vec_map := dictOf (series.filter (fun s => s.1 ≠ 0))
    if vec_map = [] then .error .unresolvableSelection
    else .ok vec_map

/-- The sort key `dim_map.get(col, float("inf"))` of `getTableData`:
a missing dimension name sorts after every present one. -/
def posKeyLe (x y : Option Nat) : Bool :=
  match x, y with
  | _, none => true
  | none, some _ => false
  | some a, some b => a ≤ b

/-- The comparison `dim_map.get(a, inf) <= dim_map.get(b, inf)` used as the
sort key of `index_cols.sort(key=...)`. -/
def posLe (dim_map : List (String × Nat)) (a b : String) : Prop :=
  posKeyLe (dlookup dim_map a) (dlookup dim_map b) = true

instance posLeDecidable (dim_map : List (String × Nat)) : DecidableRel (posLe dim_map) :=
  fun a b => Bool.decEq (posKeyLe (dlookup dim_map a) (dlookup dim_map b)) true

/-- The `index_cols` computation of `getTableData`: the first key of each
compact-spec entry, sorted ascending by catalogue position.  Python's
`list.sort(key=...)` is a stable sort; it is modelled by the stable
insertion sort. -/
def indexCols (series_specs : List (String × SpecVal)) (dim_map : List (String × Nat)) :
    List String :=
  (series_specs.map (fun p => p.1)).insertionSort (posLe dim_map)

/-- Python `str.split` with a one-character separator, keeping empty
fields: `"".split(sep)` is `[""]`. -/
def pySplit (sep : Char) : List Char → List (List Char)
  | [] => [[]]
  | c :: cs =>
    match pySplit sep cs with
    | [] => if c = sep then [[], []] else [[c]]
    | h :: t => if c = sep then [] :: h :: t else (c :: h) :: t

/-- `vec_map[vId].split(";")`: the title tokens of a vector. -/
def titleTokens (title : String) : List String :=
  (pySplit ';' title.data).map (fun cs => String.mk cs)

/-- The `row_index` dict of `getTableData`:
`{k: v for k, v in zip(index_cols, title.split(";")) if k in dim_map}`. -/
def rowIndexOf (series_specs : List (String × SpecVal)) (dim_map : List (String × Nat))
    (title : String) : List (String × String) :=
  dictOf (((indexCols series_specs dim_map).zip (titleTokens title)).filter
    (fun kv => (dlookup dim_map kv.1).isSome))

/-- One observation of a vector's `vectorDataPoint` payload:
(`refPer`, `value`). -/
structure DataPoint : Type where
  refPer : String
  value : Rat
deriving DecidableEq, Repr

/-- One assembled tidy row: the dimension-label dict `row_index` plus
`REF_DATE` and `VALUE`. -/
structure TidyRow : Type where
  dims : List (String × String)
  refDate : String
  value : Rat
deriving DecidableEq, Repr

/-- The per-vector body of step 5 of `getTableData`: build `row_index` from
the vector's title and emit one row per data point. -/
def assembleVector (series_specs : List (String × SpecVal)) (dim_map : List (String × Nat))
    (title : String) (dataPoints : List DataPoint) : List TidyRow :=
  dataPoints.map (fun pt =>
    { dims := rowIndexOf series_specs dim_map title
      refDate := pt.refPer
      value := pt.value })

/-- Step 5 of `getTableData` over all fetched series payloads
`(vectorId, vectorDataPoint)`: look each title up in `vec_map` (a missing id
is an uncaught `KeyError`, modelled as `none`) and concatenate the
per-vector rows in payload order. -/
def assembleTable (series_specs : List (String × SpecVal)) (dim_map : List (String × Nat))
    (vec_map : List (Nat × String)) (payloads : List (Nat × List DataPoint)) :
    Option (List TidyRow) :=
  match payloads with
  | [] => some []
  | (vId, pts) :: rest =>
    match dlookup vec_map vId with
    | none => none
    | some title =>
      match assembleTable series_specs dim_map vec_map rest with
      | none => none
      | some rows => some (assembleVector series_specs dim_map title pts ++ rows)

/-- The compact specs of the worked Series Fetcher example, dimension order
deliberately opposite to catalogue position order. -/
def exSpecsCI : List (String × SpecVal) :=
  [("Trade", SpecVal.one "Import"), ("Geography", SpecVal.one "Canada")]

/-- The position map of the worked example: Geography at 1, Trade at 2. -/
def exDimMapCI : List (String × Nat) :=
  [("Geography", 1), ("Trade", 2)]

/-- The resolved vector map of the worked example. -/
def exVecMap : List (Nat × String) :=
  [(42, "Canada;Import")]

/-- The fetched observation payloads of the worked example. -/
def exPayloads : List (Nat × List DataPoint) :=
  [(42, [⟨"2020-01", 100⟩, ⟨"2020-02", 110⟩])]

/-! Embedding of `ingestion/wds_data.py` and the column data of
`ingestion/config.py`. -/

/-- The whitespace class of Python's regex `\s` (ASCII). -/
def pyWs (c : Char) : Bool :=
  c = ' ' ∨ c = '\t' ∨ c = '\n' ∨ c = '\r' ∨ c = '\x0b' ∨ c = '\x0c'

/-- Python `str.lower` on one ASCII character. -/
def pyLower (c : Char) : Char :=
  if c.isUpper then Char.ofNat (c.toNat + 32) else c

/-- `re.sub("\s+", "_", ...)` on an already-lowercased character list: a
maximal run of whitespace becomes a single underscore.  The flag records
whether the previous character was whitespace. -/
def subWsAux : Bool → List Char → List Char
  | _, [] => []
  | prevWs, c :: cs =>
    if pyWs c then
      if prevWs then subWsAux true cs else '_' :: subWsAux true cs
    else c :: subWsAux false cs

/-- `to_snake_case` from `wds_data.py`:
`re.sub("\s+", "_", string.lower())`. -/
def to_snake_case (s : String) : String :=
  ⟨subWsAux false (s.data.map pyLower)⟩

/-- The claimed normalization property: lowercase, and no whitespace or
other separator character (slash, hyphen, comma, semicolon, colon, dot)
remains. -/
def claimedNormalized (s : String) : Prop :=
  ∀ c ∈ s.data, ¬c.isUpper ∧ ¬pyWs c ∧ c ∉ ['/', '-', ',', ';', ':', '.']

/-- The column renaming applied by the FX fetchers:
`[codes.get(c, c) for c in df.columns]`. -/
def renameCols (codes : List (String × String)) (cols : List String) : List String :=
  cols.map (fun c => (dlookup codes c).getD c)

/-- The column names `get_fx_data` returns for given raw CSV column names:
rename via the code map inside the era fetcher, then
`[to_snake_case(c) for c in df.columns]` as the last step. -/
def fxOutputCols (codes : List (String × String)) (rawCols : List String) : List String :=
  (renameCols codes rawCols).map to_snake_case

/-- The legacy FX code map of `config.FX_CODES`. -/
def FX_CODES_legacy : List (String × String) :=
  [("IEXM0102_AVG", "USD/CAD"), ("EUROCAM01", "EUR/CAD")]

/-- One tidy observation row entering `pivot_column`: the pivot index
`(Geography, REF_DATE)`, the pivoted column label, and `VALUE`. -/
structure PivotRow : Type where
  geo : String
  refDate : String
  colLabel : String
  value : Rat
deriving DecidableEq, Repr

/-- The values that collapse into one `pivot_table` cell: all rows of the
group `(geo, refDate, colLabel)`, in input order. -/
def collapsedValues (rows : List PivotRow) (g d c : String) : List Rat :=
  (rows.filter (fun r => r.geo = g ∧ r.refDate = d ∧ r.colLabel = c)).map (fun r => r.value)

/-- One cell of `pivot_column` with its default `aggfunc="first"`: the
first value of the collapsing group (pandas `first` = first non-null; the
model carries no nulls). -/
def pivotCellFirst (rows : List PivotRow) (g d c : String) : Option Rat :=
  (collapsedValues rows g d c).head?

/-- The arithmetic mean, as computed by pandas `mean` over non-null values. -/
def meanOf (vs : List Rat) : Rat :=
  vs.sum / vs.length

/-- Two tidy rows that collapse into a single pivot cell. -/
def exPivotRows : List PivotRow :=
  [⟨"Canada", "2020-01", "Gasoline", 1⟩, ⟨"Canada", "2020-01", "Gasoline", 3⟩]

/-- One wide row of the pivoted fuel-price table: one geography and date
with the two (possibly missing) fuel-price cells. -/
structure FuelWideRow : Type where
  geo : String
  date : String
  gasoline : Option Rat
  diesel : Option Rat
deriving DecidableEq, Repr

/-- pandas `mean` aggregation over a group's column: skip missing cells,
`none` when every cell is missing. -/
def meanAggOpt (vs : List (Option Rat)) : Option Rat :=
  if vs.filterMap id = [] then none else some (meanOf (vs.filterMap id))

/-- The `groupby(["date"]).agg({...: "mean"})` step of `get_fuel_price_data`
for one date group: the mean of each fuel column over all geographies of
that date. -/
def fuelDateAgg (rows : List FuelWideRow) (d : String) : Option Rat × Option Rat :=
  let grp := rows.filter (fun r => r.date = d)
  (meanAggOpt (grp.map (fun r => r.gasoline)), meanAggOpt (grp.map (fun r => r.diesel)))

/-! Cross-era stitching of `get_fx_data` / `get_trade_data`.  Dates are
ISO `YYYY-MM-DD` strings; `pd.to_datetime` comparison of such strings
coincides with lexicographic character comparison, modelled structurally. -/

/-- Lexicographic less-or-equal on character lists (a proper prefix is
smaller); on ISO `YYYY-MM-DD` strings this is chronological order. -/
def lexLe : List Char → List Char → Bool
  | [], _ => true
  | _ :: _, [] => false
  | a :: as, b :: bs => if a < b then true else if b < a then false else lexLe as bs

/-- `pd.to_datetime(a) <= pd.to_datetime(b)` for ISO date strings. -/
def dateLe (a b : String) : Bool :=
  lexLe a.data b.data

/-- `pd.to_datetime(a) < pd.to_datetime(b)` for ISO date strings. -/
def dateLt (a b : String) : Bool :=
  !dateLe b a

/-- Python `min` over two dates. -/
def dateMin (a b : String) : String :=
  if dateLe a b then a else b

/-- Python `max` over two dates. -/
def dateMax (a b : String) : String :=
  if dateLe a b then b else a

/-- An inclusive requested date range. -/
structure DateRange : Type where
  start : String
  stop : String
deriving DecidableEq, Repr

/-- Membership of a date in an inclusive requested range. -/
def DateRange.holds (r : DateRange) (d : String) : Bool :=
  dateLe r.start d && dateLe d r.stop

/-- The provider-era boundary date used throughout `wds_data.py`. -/
def boundary2017 : String := "2017-01-01"

/-- The clipped request range of `get_legacy_fx_data`: `None` when
`startDate >= "2017-01-01"`, else clip the end to
`min(endDate, "2017-01-01")`. -/
def legacyFxRange (startDate endDate : String) : Option DateRange :=
  if dateLe boundary2017 startDate then none
  else some ⟨startDate, dateMin endDate boundary2017⟩

/-- The clipped request range of `get_current_fx_data`: `None` when
`endDate < "2017-01-01"`, else clip the start to
`max(startDate, "2017-01-01")`. -/
def currentFxRange (startDate endDate : String) : Option DateRange :=
  if dateLt endDate boundary2017 then none
  else some ⟨dateMax startDate boundary2017, endDate⟩

/-- The clipped request range of the archived era of `get_trade_data`:
fetched only when `startDate < "2017-01-01"`, with the end clipped to
`min(endDate, "2016-12-31")`. -/
def archivedTradeRange (startDate endDate : String) : Option DateRange :=
  if dateLt startDate boundary2017 then some ⟨startDate, dateMin endDate "2016-12-31"⟩
  else none

/-- The clipped request range of the current era of `get_trade_data`:
fetched only when `endDate >= "2017-01-01"`, with the start clipped to
`max(startDate, "2017-01-01")`. -/
def currentTradeRange (startDate endDate : String) : Option DateRange :=
  if dateLe boundary2017 endDate then some ⟨dateMax startDate boundary2017, endDate⟩
  else none

/-- The rows one era contributes: a skipped era (`None`) is silently
dropped by `pd.concat`, a fetched era contributes the provider's rows for
its clipped range. -/
def eraRows {Row : Type} (fetch : DateRange → List Row) : Option DateRange → List Row
  | none => []
  | some r => fetch r

/-- The stitching shape of `get_fx_data`:
`pd.concat([get_legacy_fx_data(...), get_current_fx_data(...)])` — the two
era tables concatenated, no deduplication. -/
def get_fx_rows {Row : Type} (fetchLegacy fetchCurrent : DateRange → List Row)
    (startDate endDate : String) : List Row :=
  eraRows fetchLegacy (legacyFxRange startDate endDate)
    ++ eraRows fetchCurrent (currentFxRange startDate endDate)

/-- The stitching shape of `get_trade_data`: `pd.concat([archived, current])`
with the per-era clipped fetches — concatenated, no deduplication. -/
def get_trade_rows {Row : Type} (fetchArchived fetchCurrent : DateRange → List Row)
    (startDate endDate : String) : List Row :=
  eraRows fetchArchived (archivedTradeRange startDate endDate)
    ++ eraRows fetchCurrent (currentTradeRange startDate endDate)

/-- The claimed property that the clipping makes the two FX era request
ranges disjoint. -/
def fxErasDisjoint (startDate endDate : String) : Prop :=
  ∀ ra rb, legacyFxRange startDate endDate = some ra →
    currentFxRange startDate endDate = some rb →
    ∀ d : String, ra.holds d → rb.holds d → False

/-! ## Theorems -/

theorem dinsert_of_not_mem {α β : Type} [DecidableEq α] (d : List (α × β)) (k : α) (v : β)
    (h : k ∉ d.map Prod.fst) : dinsert d k v = d ++ [(k, v)] := by
  induction d with
  | nil => rfl
  | cons p rest ih =>
    obtain ⟨k', v'⟩ := p
    simp only [List.map_cons, List.mem_cons] at h
    push_neg at h
    rw [dinsert, if_neg (fun hk => h.1 hk.symm), ih h.2]
    rfl

theorem foldl_dinsert_of_nodup {α β : Type} [DecidableEq α] (ps acc : List (α × β))
    (h : (acc.map Prod.fst ++ ps.map Prod.fst).Nodup) :
    ps.foldl (fun d p => dinsert d p.1 p.2) acc = acc ++ ps := by
  induction ps generalizing acc with
  | nil => simp
  | cons p rest ih =>
    simp only [List.foldl_cons]
    have hk : p.1 ∉ acc.map Prod.fst := by
      intro hmem
      exact (List.nodup_append.mp h).2.2 hmem (by simp)
    rw [dinsert_of_not_mem acc p.1 p.2 hk]
    rw [ih (acc ++ [p])]
    · simp
    · simp only [List.map_append, List.map_cons, List.map_nil] at h ⊢
      simpa [List.append_assoc] using h

/-- A Python dict built from pairs with pairwise-distinct keys is that pair
list itself. -/
theorem dictOf_of_nodup {α β : Type} [DecidableEq α] (ps : List (α × β))
    (h : (ps.map Prod.fst).Nodup) : dictOf ps = ps := by
  have := foldl_dinsert_of_nodup ps [] (by simpa using h)
  simpa [dictOf] using this

theorem pyProduct_length (L : List (List String)) :
    (pyProduct L).length = (L.map List.length).prod := by
  induction L with
  | nil => rfl
  | cons vs rest ih =>
    simp only [pyProduct, List.length_flatMap, List.map_map]
    simp only [Function.comp_def, List.length_map, ih]
    rw [List.map_const', List.sum_replicate, smul_eq_mul, List.map_cons, List.prod_cons]

theorem pyProduct_mem_length {c : List String} {L : List (List String)}
    (h : c ∈ pyProduct L) : c.length = L.length := by
  induction L generalizing c with
  | nil => simp only [pyProduct, List.mem_singleton] at h; simp [h]
  | cons vs rest ih =>
    simp only [pyProduct, List.mem_flatMap, List.mem_map] at h
    obtain ⟨v, _, c', hc', rfl⟩ := h
    simp [ih hc']

/-- If some dimension has an empty value list, the cartesian product is empty. -/
theorem pyProduct_eq_nil_of_mem {L : List (List String)} (h : [] ∈ L) :
    pyProduct L = [] := by
  induction L with
  | nil => cases h
  | cons vs rest ih =>
    rcases List.mem_cons.mp h with rfl | hrest
    · rfl
    · simp [pyProduct, ih hrest]

/-- C2: `expand_specs` returns exactly the cartesian product: with
dimension cardinalities (a, b, c, …) it produces a×b×c×… Selections; each
Selection's keys equal the spec's dimension names in spec order; a scalar
value behaves as a one-element list; an empty value list yields zero
Selections. -/
theorem c2_expand_specs_cartesian (spec : List (String × SpecVal))
    (hnd : (spec.map Prod.fst).Nodup) :
    (expand_specs spec).length = (spec.map (fun p => p.2.vals.length)).prod
    ∧ (∀ sel ∈ expand_specs spec, sel.map Prod.fst = spec.map Prod.fst)
    ∧ (∀ pre post k s, expand_specs (pre ++ (k, SpecVal.one s) :: post)
        = expand_specs (pre ++ (k, SpecVal.many [s]) :: post))
    ∧ (∀ k, (k, SpecVal.many []) ∈ spec → expand_specs spec = []) := by
  refine ⟨?_, ?_, ?_, ?_⟩
  · simp [expand_specs, pyProduct_length, Function.comp_def]
  · intro sel hsel
    simp only [expand_specs, List.mem_map] at hsel
    obtain ⟨combo, hcombo, rfl⟩ := hsel
    have hlen : combo.length = spec.length := by
      simpa using pyProduct_mem_length hcombo
    have hkeys : ((spec.map Prod.fst).zip combo).map Prod.fst = spec.map Prod.fst := by
      apply List.map_fst_zip
      simp [hlen]
    rw [dictOf_of_nodup _ (by rw [hkeys]; exact hnd), hkeys]
  · intro pre post k s
    simp [expand_specs, SpecVal.vals]
  · intro k hk
    have : [] ∈ spec.map (fun p => p.2.vals) := by
      refine List.mem_map.mpr ⟨(k, SpecVal.many []), hk, rfl⟩
    simp [expand_specs, pyProduct_eq_nil_of_mem this]

/-- Witness for C2 at a concrete three-dimension spec with cardinalities
(2, 2, 1). -/
theorem c2_expand_specs_cartesian_witness :
    (exSpec.map Prod.fst).Nodup
    ∧ ((expand_specs exSpec).length = (exSpec.map (fun p => p.2.vals.length)).prod
      ∧ (∀ sel ∈ expand_specs exSpec, sel.map Prod.fst = exSpec.map Prod.fst)
      ∧ (∀ pre post k s, expand_specs (pre ++ (k, SpecVal.one s) :: post)
          = expand_specs (pre ++ (k, SpecVal.many [s]) :: post))
      ∧ (∀ k, (k, SpecVal.many []) ∈ exSpec → expand_specs exSpec = [])) :=
  ⟨by decide, c2_expand_specs_cartesian exSpec (by decide)⟩

/-- C10: applied to the empty compact spec, `expand_specs` returns exactly
one Selection, the empty Selection. -/
theorem c10_expand_specs_empty_spec : expand_specs [] = [[]] := rfl

theorem dinsert_ne_nil {α β : Type} [DecidableEq α] (d : List (α × β)) (k : α) (v : β) :
    dinsert d k v ≠ [] := by
  cases d with
  | nil => simp [dinsert]
  | cons p rest =>
    obtain ⟨k', v'⟩ := p
    rw [dinsert]
    split <;> simp

theorem foldl_dinsert_ne_nil {α β : Type} [DecidableEq α] (ps acc : List (α × β))
    (h : acc ≠ []) : ps.foldl (fun d p => dinsert d p.1 p.2) acc ≠ [] := by
  induction ps generalizing acc with
  | nil => simpa
  | cons p rest ih =>
    simp only [List.foldl_cons]
    exact ih _ (dinsert_ne_nil acc p.1 p.2)

theorem dictOf_eq_nil_iff {α β : Type} [DecidableEq α] (ps : List (α × β)) :
    dictOf ps = [] ↔ ps = [] := by
  constructor
  · intro h
    cases ps with
    | nil => rfl
    | cons p rest =>
      exact absurd h (foldl_dinsert_ne_nil rest [(p.1, p.2)] (by simp))
  · rintro rfl; rfl

theorem mem_dinsert {α β : Type} [DecidableEq α] {d : List (α × β)} {k : α} {v : β}
    {p : α × β} (h : p ∈ dinsert d k v) : p ∈ d ∨ p = (k, v) := by
  induction d with
  | nil => simpa [dinsert] using h
  | cons q rest ih =>
    obtain ⟨k', v'⟩ := q
    rw [dinsert] at h
    split at h
    · rcases List.mem_cons.mp h with rfl | hr
      · exact Or.inr rfl
      · exact Or.inl (List.mem_cons_of_mem _ hr)
    · rcases List.mem_cons.mp h with rfl | hr
      · exact Or.inl (List.mem_cons_self _ _)
      · rcases ih hr with h1 | h1
        · exact Or.inl (List.mem_cons_of_mem _ h1)
        · exact Or.inr h1

theorem mem_dictOf {α β : Type} [DecidableEq α] {ps : List (α × β)} {p : α × β}
    (h : p ∈ dictOf ps) : p ∈ ps := by
  suffices H : ∀ acc, p ∈ ps.foldl (fun d q => dinsert d q.1 q.2) acc → p ∈ acc ∨ p ∈ ps by
    rcases H [] h with h1 | h1
    · cases h1
    · exact h1
  clear h
  induction ps with
  | nil => intro acc h; exact Or.inl h
  | cons q rest ih =>
    intro acc h
    simp only [List.foldl_cons] at h
    rcases ih _ h with h1 | h1
    · rcases mem_dinsert h1 with h2 | h2
      · exact Or.inl h2
      · exact Or.inr (by simp [h2])
    · exact Or.inr (List.mem_cons_of_mem _ h1)

theorem dlookup_mem {α β : Type} [DecidableEq α] {d : List (α × β)} {k : α} {v : β}
    (h : dlookup d k = some v) : (k, v) ∈ d := by
  induction d with
  | nil => cases h
  | cons q rest ih =>
    obtain ⟨k', v'⟩ := q
    rw [dlookup] at h
    split at h
    · rename_i heq
      cases h
      simp [heq]
    · exact List.mem_cons_of_mem _ (ih h)

/-- C4: `getVectorIds` raises `InvalidQueryError` iff the coordinate list
is empty; for a non-empty list it raises `UnresolvableSelectionError` iff
every coordinate resolves to the null-vector sentinel (vectorId 0);
otherwise it returns the resolved pairs with the sentinel entries excluded
and all other identifiers and titles passed through verbatim. -/
theorem c4_get_vector_ids (coords : List String) (resolve : String → Nat × String) :
    (getVectorIds coords resolve = .error .invalidQuery ↔ coords = [])
    ∧ (coords ≠ [] →
        (getVectorIds coords resolve = .error .unresolvableSelection
          ↔ ∀ c ∈ coords, (resolve c).1 = 0))
    ∧ ((((coords.map resolve).filter (fun s => s.1 ≠ 0)).map Prod.fst).Nodup →
        (∃ c ∈ coords, (resolve c).1 ≠ 0) →
        getVectorIds coords resolve
          = .ok ((coords.map resolve).filter (fun s => s.1 ≠ 0))) := by
  by_cases hc : coords = []
  · subst hc
    refine ⟨by simp [getVectorIds], fun h => absurd rfl h, ?_⟩
    rintro _ ⟨c, hc, _⟩
    cases hc
  · have hfilter : dictOf ((coords.map resolve).filter (fun s => s.1 ≠ 0)) = []
        ↔ ∀ c ∈ coords, (resolve c).1 = 0 := by
      rw [dictOf_eq_nil_iff, List.filter_eq_nil_iff]
      constructor
      · intro h c hcmem
        have := h (resolve c) (List.mem_map_of_mem resolve hcmem)
        simpa using this
      · intro h s hs
        obtain ⟨c, hcmem, rfl⟩ := List.mem_map.mp hs
        simpa using h c hcmem
    refine ⟨?_, fun _ => ?_, fun hnd hex => ?_⟩
    · simp only [getVectorIds, if_neg hc]
      constructor
      · intro h
        split at h <;> simp_all
      · intro h; exact absurd h hc
    · simp only [getVectorIds, if_neg hc]
      constructor
      · intro h
        split at h
        · exact hfilter.mp (by assumption)
        · cases h
      · intro h
        rw [if_pos (hfilter.mpr h)]
    · obtain ⟨c, hcmem, hcne⟩ := hex
      have hne : dictOf ((coords.map resolve).filter (fun s => s.1 ≠ 0)) ≠ [] := by
        intro h
        rw [dictOf_eq_nil_iff] at h
        have := List.filter_eq_nil_iff.mp h (resolve c) (List.mem_map_of_mem resolve hcmem)
        simp_all
      simp only [getVectorIds, if_neg hc, if_neg hne]
      rw [dictOf_of_nodup _ hnd]

/-- Witness for C4: two coordinates, one resolving to the sentinel, one to
vector 5. -/
theorem c4_get_vector_ids_witness :
    (["c1", "c2"] ≠ ([] : List String))
    ∧ ((((["c1", "c2"].map exResolve).filter (fun s => s.1 ≠ 0)).map Prod.fst).Nodup)
    ∧ (∃ c ∈ ["c1", "c2"], (exResolve c).1 ≠ 0)
    ∧ (getVectorIds ["c1", "c2"] exResolve = .error .invalidQuery ↔ ["c1", "c2"] = [])
    ∧ (getVectorIds ["c1", "c2"] exResolve = .error .unresolvableSelection
        ↔ ∀ c ∈ ["c1", "c2"], (exResolve c).1 = 0)
    ∧ getVectorIds ["c1", "c2"] exResolve
        = .ok ((["c1", "c2"].map exResolve).filter (fun s => s.1 ≠ 0)) := by
  obtain ⟨h1, h2, h3⟩ := c4_get_vector_ids ["c1", "c2"] exResolve
  exact ⟨by decide, by decide, ⟨"c2", by decide, by decide⟩, h1,
    h2 (by decide), h3 (by decide) ⟨"c2", by decide, by decide⟩⟩

theorem zip_eq_take_zip {α β : Type} : ∀ (l₁ : List α) (l₂ : List β),
    l₁.zip l₂ = (l₁.take l₂.length).zip l₂
  | [], _ => by simp
  | _ :: _, [] => by simp
  | a :: as, b :: bs => by
    simp only [List.zip_cons_cons, List.length_cons, List.take_succ_cons]
    rw [← zip_eq_take_zip as bs]

/-- C7: a vector title with fewer delimited tokens than expected columns is
silently truncated: the tokens are zipped against the leading
position-sorted columns, the produced rows carry only those matched
columns, and no error is raised (one row per data point is still built). -/
theorem c7_title_truncation (specs : List (String × SpecVal)) (dim_map : List (String × Nat))
    (title : String)
    (_hshort : (titleTokens title).length < (indexCols specs dim_map).length) :
    rowIndexOf specs dim_map title
      = dictOf ((((indexCols specs dim_map).take (titleTokens title).length).zip
          (titleTokens title)).filter (fun kv => (dlookup dim_map kv.1).isSome))
    ∧ (∀ kv ∈ rowIndexOf specs dim_map title,
        kv.1 ∈ (indexCols specs dim_map).take (titleTokens title).length)
    ∧ (∀ pts, (assembleVector specs dim_map title pts).length = pts.length) := by
  have hzip : (indexCols specs dim_map).zip (titleTokens title)
      = ((indexCols specs dim_map).take (titleTokens title).length).zip
          (titleTokens title) :=
    zip_eq_take_zip _ _
  refine ⟨by rw [rowIndexOf, hzip], ?_, ?_⟩
  · intro kv hkv
    rw [rowIndexOf, hzip] at hkv
    have h1 := mem_dictOf hkv
    have h2 := List.mem_of_mem_filter h1
    obtain ⟨k, v⟩ := kv
    exact (List.of_mem_zip h2).1
  · intro pts
    simp [assembleVector]

/-- Witness for C7: two expected columns, a one-token title `"Canada"`;
the single row carries only the Geography column. -/
theorem c7_title_truncation_witness :
    ((titleTokens "Canada").length < (indexCols exSpecsCI exDimMapCI).length)
    ∧ rowIndexOf exSpecsCI exDimMapCI "Canada"
        = dictOf ((((indexCols exSpecsCI exDimMapCI).take
            (titleTokens "Canada").length).zip
            (titleTokens "Canada")).filter (fun kv => (dlookup exDimMapCI kv.1).isSome))
    ∧ rowIndexOf exSpecsCI exDimMapCI "Canada" = [("Geography", "Canada")] := by
  have h := c7_title_truncation exSpecsCI exDimMapCI "Canada" (by decide)
  exact ⟨by decide, h.1, by decide⟩

theorem posKeyLe_total (x y : Option Nat) : posKeyLe x y = true ∨ posKeyLe y x = true := by
  cases x <;> cases y
  · exact Or.inl rfl
  · exact Or.inr rfl
  · exact Or.inl rfl
  · rename_i a b
    rcases Nat.le_total a b with h | h
    · exact Or.inl (by simpa [posKeyLe] using h)
    · exact Or.inr (by simpa [posKeyLe] using h)

theorem posKeyLe_trans {x y z : Option Nat} (h1 : posKeyLe x y = true)
    (h2 : posKeyLe y z = true) : posKeyLe x z = true := by
  cases x <;> cases y <;> cases z <;> simp_all [posKeyLe]
  omega

instance posLeIsTotal (dim_map : List (String × Nat)) : IsTotal String (posLe dim_map) :=
  ⟨fun a b => posKeyLe_total (dlookup dim_map a) (dlookup dim_map b)⟩

instance posLeIsTrans (dim_map : List (String × Nat)) : IsTrans String (posLe dim_map) :=
  ⟨fun _ _ _ h1 h2 => posKeyLe_trans h1 h2⟩

theorem map_fst_zip_eq_take {α β : Type} (l₁ : List α) (l₂ : List β) :
    (l₁.zip l₂).map Prod.fst = l₁.take l₂.length := by
  rw [zip_eq_take_zip]
  apply List.map_fst_zip
  simp

/-- C1: per fetched vector, the output dimension-column order is the
spec's dimension names sorted ascending by catalogue position (not by
appearance order); the title tokens are zipped against that sorted column
list keeping only columns known to the position map; and every
(date, value) observation pair becomes a separate row sharing the same
dimension-label values. -/
theorem c1_tidy_assembly (specs : List (String × SpecVal)) (dim_map : List (String × Nat))
    (hnd : (specs.map Prod.fst).Nodup) :
    ((indexCols specs dim_map).Perm (specs.map Prod.fst))
    ∧ ((indexCols specs dim_map).Pairwise (fun a b => ∀ pa pb,
        dlookup dim_map a = some pa → dlookup dim_map b = some pb → pa ≤ pb))
    ∧ (∀ title, rowIndexOf specs dim_map title
        = ((indexCols specs dim_map).zip (titleTokens title)).filter
            (fun kv => (dlookup dim_map kv.1).isSome))
    ∧ (∀ title pts, assembleVector specs dim_map title pts
        = pts.map (fun pt =>
            { dims := rowIndexOf specs dim_map title, refDate := pt.refPer,
              value := pt.value })) := by
  have hperm : (indexCols specs dim_map).Perm (specs.map Prod.fst) :=
    List.perm_insertionSort _ _
  refine ⟨hperm, ?_, ?_, fun _ _ => rfl⟩
  · have hs : (indexCols specs dim_map).Pairwise (posLe dim_map) :=
      List.sorted_insertionSort _ _
    refine hs.imp ?_
    intro a b hab pa pb hpa hpb
    rw [posLe, hpa, hpb] at hab
    simpa [posKeyLe] using hab
  · intro title
    rw [rowIndexOf]
    apply dictOf_of_nodup
    have hcols : (indexCols specs dim_map).Nodup := hperm.nodup_iff.mpr hnd
    have hsub : ((((indexCols specs dim_map).zip (titleTokens title)).filter
        (fun kv => (dlookup dim_map kv.1).isSome)).map Prod.fst).Sublist
          (indexCols specs dim_map) := by
      have h1 := (List.filter_sublist ((indexCols specs dim_map).zip (titleTokens title))
        (p := fun kv => (dlookup dim_map kv.1).isSome)).map Prod.fst
      rw [map_fst_zip_eq_take] at h1
      exact h1.trans (List.take_sublist _ _)
    exact hcols.sublist hsub

/-- Witness for C1: the worked example — title `"Canada;Import"`, position
map Geography 1 / Trade 2, two observations — assembles exactly the two
expected rows, with the columns in position order although the spec listed
Trade first. -/
theorem c1_tidy_assembly_witness :
    (exSpecsCI.map Prod.fst).Nodup
    ∧ ((indexCols exSpecsCI exDimMapCI).Perm (exSpecsCI.map Prod.fst))
    ∧ indexCols exSpecsCI exDimMapCI = ["Geography", "Trade"]
    ∧ assembleTable exSpecsCI exDimMapCI exVecMap exPayloads
        = some [⟨[("Geography", "Canada"), ("Trade", "Import")], "2020-01", 100⟩,
                ⟨[("Geography", "Canada"), ("Trade", "Import")], "2020-02", 110⟩] := by
  have h := c1_tidy_assembly exSpecsCI exDimMapCI (by decide)
  exact ⟨by decide, h.1, by decide, by decide⟩

/-- Every position stored in the dimension mapping of a valid catalogue
lies in the coordinate slot range. -/
theorem dimMapping_pos_valid {meta : List RawDim} (hval : validPositions meta)
    {k : String} {pos : Nat} {values : List (String × Nat)}
    (h : dlookup (dimMapping meta) k = some (pos, values)) :
    1 ≤ pos ∧ pos ≤ 10 := by
  have hmem := mem_dictOf (dlookup_mem h)
  obtain ⟨d, hd, heq⟩ := List.mem_map.mp hmem
  simp only [Prod.mk.injEq] at heq
  exact heq.2.1 ▸ hval d hd

theorem pySet_valid (xs : List String) (v : String) (pos : Nat) (h1 : 1 ≤ pos)
    (h2 : pos ≤ xs.length) :
    pySet xs ((pos : Int) - 1) v = some (xs.set (pos - 1) v) := by
  have h0 : (0 : Int) ≤ (pos : Int) - 1 := by omega
  have ht : ((pos : Int) - 1).toNat = pos - 1 := by omega
  have hlt : ((pos : Int) - 1).toNat < xs.length := by omega
  rw [pySet, if_pos h0, if_pos hlt, ht]

theorem fillSlots_ne_none (dm : List (String × (Nat × List (String × Nat))))
    (hdm : ∀ k pos values, dlookup dm k = some (pos, values) → 1 ≤ pos ∧ pos ≤ 10)
    (items : List (String × String)) :
    ∀ coords : List String, coords.length = 10 → fillSlots dm items coords ≠ none := by
  induction items with
  | nil => intro coords _; simp [fillSlots]
  | cons kv rest ih =>
    intro coords hlen
    obtain ⟨k, v⟩ := kv
    cases hdk : dlookup dm k with
    | none => simp [fillSlots, hdk]
    | some pv =>
      obtain ⟨pos, values⟩ := pv
      cases hdv : dlookup values v with
      | none => simp [fillSlots, hdk, hdv]
      | some value =>
        obtain ⟨hp1, hp2⟩ := hdm k pos values hdk
        simp only [fillSlots, hdk, hdv,
          pySet_valid coords (toString value) pos hp1 (by omega)]
        exact ih _ (by simp [hlen])

/-- Reaching a Selection item whose dimension or member is unknown makes
the whole Selection resolve to `None` (dropped). -/
theorem fillSlots_drop (dm : List (String × (Nat × List (String × Nat))))
    (hdm : ∀ k pos values, dlookup dm k = some (pos, values) → 1 ≤ pos ∧ pos ≤ 10)
    (items : List (String × String)) :
    ∀ coords : List String, coords.length = 10 →
      (∃ kv ∈ items, badPair dm kv) → fillSlots dm items coords = some none := by
  induction items with
  | nil =>
    rintro coords _ ⟨kv, hkv, -⟩
    cases hkv
  | cons kv rest ih =>
    rintro coords hlen ⟨bad, hbad, hbadp⟩
    obtain ⟨k, v⟩ := kv
    cases hdk : dlookup dm k with
    | none => simp [fillSlots, hdk]
    | some pv =>
      obtain ⟨pos, values⟩ := pv
      cases hdv : dlookup values v with
      | none => simp [fillSlots, hdk, hdv]
      | some value =>
        obtain ⟨hp1, hp2⟩ := hdm k pos values hdk
        simp only [fillSlots, hdk, hdv,
          pySet_valid coords (toString value) pos hp1 (by omega)]
        rcases List.mem_cons.mp hbad with rfl | hmem
        · rw [badPair, hdk] at hbadp
          rw [hbadp] at hdv
          cases hdv
        · exact ih _ (by simp [hlen]) ⟨bad, hmem, hbadp⟩

theorem encodeSelection_ne_none (dm : List (String × (Nat × List (String × Nat))))
    (hdm : ∀ k pos values, dlookup dm k = some (pos, values) → 1 ≤ pos ∧ pos ≤ 10)
    (series : List (String × String)) : encodeSelection dm series ≠ none := by
  rw [encodeSelection]
  cases hfs : fillSlots dm series (List.replicate 10 "0") with
  | none => exact absurd hfs (fillSlots_ne_none dm hdm series _ (by simp))
  | some o => cases o <;> simp

theorem encodeSelection_drop (dm : List (String × (Nat × List (String × Nat))))
    (hdm : ∀ k pos values, dlookup dm k = some (pos, values) → 1 ≤ pos ∧ pos ≤ 10)
    (series : List (String × String)) (h : ∃ kv ∈ series, badPair dm kv) :
    encodeSelection dm series = some none := by
  rw [encodeSelection, fillSlots_drop dm hdm series _ (by simp) h]

theorem coordsLoop_eq_filterMap (dm : List (String × (Nat × List (String × Nat))))
    (sels : List (List (String × String)))
    (h : ∀ sel ∈ sels, encodeSelection dm sel ≠ none) :
    coordsLoop dm sels
      = some (sels.filterMap (fun s => (encodeSelection dm s).join)) := by
  induction sels with
  | nil => rfl
  | cons sel rest ih =>
    have hrest := ih (fun s hs => h s (List.mem_cons_of_mem _ hs))
    rw [coordsLoop]
    cases henc : encodeSelection dm sel with
    | none => exact absurd henc (h sel (List.mem_cons_self _ _))
    | some o =>
      cases o with
      | none => rw [hrest]; simp [List.filterMap_cons, henc]
      | some c => rw [hrest]; simp [List.filterMap_cons, henc]

theorem dimMapOf_ne_nil {meta : List RawDim} (hne : meta ≠ []) : dimMapOf meta ≠ [] := by
  rw [dimMapOf]
  intro h
  rw [List.map_eq_nil_iff, dimMapping, dictOf_eq_nil_iff, List.map_eq_nil_iff] at h
  exact hne h

/-- C3: under a valid catalogue, a Selection naming an unknown dimension or
member is discarded without raising, the surviving Selections contribute
their coordinates in order, and the dimension-position map is returned
independently of the Selections and is non-empty whenever the catalogue
is. -/
theorem c3_build_coordinates_discard (meta : List RawDim)
    (sels : List (List (String × String)))
    (hval : validPositions meta) (hne : meta ≠ []) :
    buildCoordinates meta sels
      = some (sels.filterMap (fun s => (encodeSelection (dimMapping meta) s).join),
              dimMapOf meta)
    ∧ dimMapOf meta ≠ []
    ∧ (∀ sel ∈ sels, (∃ kv ∈ sel, badPair (dimMapping meta) kv) →
        encodeSelection (dimMapping meta) sel = some none) := by
  have hdm : ∀ k pos values, dlookup (dimMapping meta) k = some (pos, values) →
      1 ≤ pos ∧ pos ≤ 10 := fun _ _ _ h => dimMapping_pos_valid hval h
  refine ⟨?_, dimMapOf_ne_nil hne, fun sel _ h => encodeSelection_drop _ hdm sel h⟩
  rw [buildCoordinates,
    coordsLoop_eq_filterMap _ sels (fun s _ => encodeSelection_ne_none _ hdm s)]

/-- Witness for C3: a catalogue with two dimensions, one resolvable
Selection and one naming an unknown dimension; the bad Selection is
dropped, the good one yields its coordinate, and the position map is the
full catalogue map. -/
theorem c3_build_coordinates_discard_witness :
    validPositions exMeta
    ∧ exMeta ≠ []
    ∧ buildCoordinates exMeta [[("Geography", "Canada")], [("Planet", "Earth")]]
        = some ([[("Geography", "Canada")], [("Planet", "Earth")]].filterMap
              (fun s => (encodeSelection (dimMapping exMeta) s).join),
            dimMapOf exMeta)
    ∧ buildCoordinates exMeta [[("Geography", "Canada")], [("Planet", "Earth")]]
        = some (["0.0.7.0.0.0.0.0.0.0"], [("Geography", 3), ("Trade", 1)])
    ∧ dimMapOf exMeta ≠ [] := by
  have h := c3_build_coordinates_discard exMeta
    [[("Geography", "Canada")], [("Planet", "Earth")]] (by decide) (by decide)
  exact ⟨by decide, by decide, h.1, by decide, h.2.1⟩

/-- Slot-level characterization of a successfully resolved Selection:
each resolved item's member id sits at slot `position - 1`, all other
slots keep their initial content. -/
theorem fillSlots_sets (dm : List (String × (Nat × List (String × Nat))))
    (hdm : ∀ k pos values, dlookup dm k = some (pos, values) → 1 ≤ pos ∧ pos ≤ 10)
    (items : List (String × String)) :
    ∀ coords slots : List String, coords.length = 10 →
      (∀ kv ∈ items, (selId dm kv).isSome) →
      items.Pairwise (fun a b => selPos dm a ≠ selPos dm b) →
      fillSlots dm items coords = some (some slots) →
      slots.length = 10
      ∧ (∀ kv ∈ items, ∀ p id, selPos dm kv = some p → selId dm kv = some id →
          slots[p - 1]? = some (toString id))
      ∧ (∀ i, i < 10 → (∀ kv ∈ items, selPos dm kv ≠ some (i + 1)) →
          slots[i]? = coords[i]?) := by
  induction items with
  | nil =>
    intro coords slots hlen _ _ hrun
    simp only [fillSlots, Option.some.injEq] at hrun
    subst hrun
    exact ⟨hlen, by rintro kv ⟨⟩, fun i _ _ => rfl⟩
  | cons kv rest ih =>
    intro coords slots hlen hres hpair hrun
    obtain ⟨k, v⟩ := kv
    have hid := hres (k, v) (List.mem_cons_self _ _)
    rw [selId] at hid
    cases hdk : dlookup dm k with
    | none => rw [hdk] at hid; cases hid
    | some pv =>
      obtain ⟨pos, values⟩ := pv
      rw [hdk] at hid
      cases hdv : dlookup values v with
      | none => simp [hdv] at hid
      | some id0 =>
        obtain ⟨hp1, hp2⟩ := hdm k pos values hdk
        simp only [fillSlots, hdk, hdv,
          pySet_valid coords (toString id0) pos hp1 (by omega)] at hrun
        obtain ⟨hhead, hrest⟩ := List.pairwise_cons.mp hpair
        obtain ⟨ih1, ih2, ih3⟩ := ih (coords.set (pos - 1) (toString id0)) slots
          (by simp [hlen]) (fun kv h => hres kv (List.mem_cons_of_mem _ h)) hrest hrun
        have hheadpos : selPos dm (k, v) = some pos := by
          rw [selPos, hdk]; rfl
        have hheadid : selId dm (k, v) = some id0 := by
          rw [selId, hdk]
          simp [hdv]
        refine ⟨ih1, ?_, ?_⟩
        · rintro kv' hkv' p id hp hid'
          rcases List.mem_cons.mp hkv' with rfl | hmem
          · rw [hheadpos] at hp
            injection hp with hp
            subst hp
            rw [hheadid] at hid'
            injection hid' with hid'
            subst hid'
            have hno : ∀ b ∈ rest, selPos dm b ≠ some ((pos - 1) + 1) := by
              intro b hb heq
              apply hhead b hb
              rw [hheadpos, heq]
              congr 1
              omega
            rw [ih3 (pos - 1) (by omega) hno,
              List.getElem?_set_self (by rw [hlen]; omega)]
          · exact ih2 kv' hmem p id hp hid'
        · intro i hi hnone
          have hni : ∀ b ∈ rest, selPos dm b ≠ some (i + 1) :=
            fun b hb => hnone b (List.mem_cons_of_mem _ hb)
          have hipos : pos ≠ i + 1 := by
            intro heq
            exact hnone (k, v) (List.mem_cons_self _ _) (by rw [hheadpos, heq])
          rw [ih3 i hi hni, List.getElem?_set_ne (by omega : pos - 1 ≠ i)]

/-- C8: under a valid catalogue, every coordinate produced by
`buildCoordinates` is ten dot-joined slots in which slot `i` holds the
selected member id of the dimension whose position is `i + 1`, and every
unselected slot holds the sentinel `"0"`. -/
theorem c8_coordinate_slots (meta : List RawDim) (sels : List (List (String × String)))
    (hval : validPositions meta)
    (hres : ∀ sel ∈ sels, ∀ kv ∈ sel, (selId (dimMapping meta) kv).isSome)
    (hdis : ∀ sel ∈ sels, sel.Pairwise (fun a b =>
        selPos (dimMapping meta) a ≠ selPos (dimMapping meta) b))
    (cs : List String) (dmap : List (String × Nat))
    (hbuild : buildCoordinates meta sels = some (cs, dmap)) :
    ∀ c ∈ cs, ∃ sel ∈ sels, ∃ slots : List String,
      c = String.intercalate "." slots ∧ slots.length = 10
      ∧ (∀ kv ∈ sel, ∀ p id, selPos (dimMapping meta) kv = some p →
          selId (dimMapping meta) kv = some id → slots[p - 1]? = some (toString id))
      ∧ (∀ i, i < 10 → (∀ kv ∈ sel, selPos (dimMapping meta) kv ≠ some (i + 1)) →
          slots[i]? = some "0") := by
  have hdm : ∀ k pos values, dlookup (dimMapping meta) k = some (pos, values) →
      1 ≤ pos ∧ pos ≤ 10 := fun _ _ _ h => dimMapping_pos_valid hval h
  rw [buildCoordinates,
    coordsLoop_eq_filterMap _ sels (fun s _ => encodeSelection_ne_none _ hdm s)] at hbuild
  injection hbuild with hbuild
  have hcs : cs = sels.filterMap (fun s => (encodeSelection (dimMapping meta) s).join) :=
    (congrArg Prod.fst hbuild).symm
  intro c hc
  rw [hcs] at hc
  obtain ⟨sel, hsel, hjoin⟩ := List.mem_filterMap.mp hc
  have henc : encodeSelection (dimMapping meta) sel = some (some c) := by
    cases h : encodeSelection (dimMapping meta) sel with
    | none => rw [h] at hjoin; cases hjoin
    | some o =>
      cases o with
      | none => rw [h] at hjoin; cases hjoin
      | some c' =>
        rw [h] at hjoin
        simpa using hjoin
  rw [encodeSelection] at henc
  cases hfs : fillSlots (dimMapping meta) sel (List.replicate 10 "0") with
  | none => exact absurd hfs (fillSlots_ne_none _ hdm sel _ (by simp))
  | some o =>
    cases o with
    | none => rw [hfs] at henc; cases henc
    | some slots =>
      rw [hfs] at henc
      have hcval : c = String.intercalate "." slots := by
        injection henc with henc
        injection henc with henc
        exact henc.symm
      obtain ⟨h1, h2, h3⟩ := fillSlots_sets _ hdm sel (List.replicate 10 "0") slots
        (by simp) (hres sel hsel) (hdis sel hsel) hfs
      exact ⟨sel, hsel, slots, hcval, h1, h2, fun i hi hno => by
        rw [h3 i hi hno, List.getElem?_replicate_of_lt hi]⟩

/-- Witness for C8: the Selection Geography = Canada against the catalogue
with Geography at position 3 (member id 7) yields exactly
`"0.0.7.0.0.0.0.0.0.0"`. -/
theorem c8_coordinate_slots_witness :
    validPositions exMeta
    ∧ buildCoordinates exMeta [[("Geography", "Canada")]]
        = some (["0.0.7.0.0.0.0.0.0.0"], [("Geography", 3), ("Trade", 1)])
    ∧ (∀ c ∈ ["0.0.7.0.0.0.0.0.0.0"], ∃ sel ∈ [[("Geography", "Canada")]],
        ∃ slots : List String,
          c = String.intercalate "." slots ∧ slots.length = 10
          ∧ (∀ kv ∈ sel, ∀ p id, selPos (dimMapping exMeta) kv = some p →
              selId (dimMapping exMeta) kv = some id → slots[p - 1]? = some (toString id))
          ∧ (∀ i, i < 10 → (∀ kv ∈ sel, selPos (dimMapping exMeta) kv ≠ some (i + 1)) →
              slots[i]? = some "0")) := by
  have hb : buildCoordinates exMeta [[("Geography", "Canada")]]
      = some (["0.0.7.0.0.0.0.0.0.0"], [("Geography", 3), ("Trade", 1)]) := by decide
  refine ⟨by decide, hb, ?_⟩
  exact c8_coordinate_slots exMeta [[("Geography", "Canada")]] (by decide)
    (by decide)
    (by
      intro sel hsel
      rcases List.mem_singleton.mp hsel with rfl
      exact List.pairwise_singleton _ _)
    ["0.0.7.0.0.0.0.0.0.0"] [("Geography", 3), ("Trade", 1)] hb

theorem lexLe_refl : ∀ l : List Char, lexLe l l = true
  | [] => rfl
  | c :: cs => by
    rw [lexLe]
    simp only [lt_irrefl, if_false]
    exact lexLe_refl cs

theorem lexLe_total : ∀ a b : List Char, lexLe a b = true ∨ lexLe b a = true
  | [], _ => Or.inl rfl
  | _ :: _, [] => Or.inr rfl
  | x :: xs, y :: ys => by
    rcases lt_trichotomy x y with h | h | h
    · refine Or.inl ?_
      rw [lexLe, if_pos h]
    · subst h
      rcases lexLe_total xs ys with h1 | h1
      · refine Or.inl ?_
        rw [lexLe]
        simp only [lt_irrefl, if_false]
        exact h1
      · refine Or.inr ?_
        rw [lexLe]
        simp only [lt_irrefl, if_false]
        exact h1
    · refine Or.inr ?_
      rw [lexLe, if_pos h]

theorem lexLe_trans : ∀ {a b c : List Char},
    lexLe a b = true → lexLe b c = true → lexLe a c = true
  | [], _, _, _, _ => rfl
  | _ :: _, [], _, h1, _ => by cases h1
  | _ :: _, _ :: _, [], _, h2 => by cases h2
  | x :: xs, y :: ys, z :: zs, h1, h2 => by
    rw [lexLe] at h1 h2 ⊢
    split at h1
    · rename_i hxy
      split at h2
      · rename_i hyz
        rw [if_pos (lt_trans hxy hyz)]
      · split at h2
        · cases h2
        · rename_i hyz hzy
          have heq : y = z := le_antisymm (not_lt.mp hzy) (not_lt.mp hyz)
          subst heq
          rw [if_pos hxy]
    · split at h1
      · cases h1
      · rename_i hxy hyx
        have heq : x = y := le_antisymm (not_lt.mp hyx) (not_lt.mp hxy)
        subst heq
        split at h2
        · rename_i hxz
          rw [if_pos hxz]
        · split at h2
          · cases h2
          · rename_i hxz hzx
            have heq : x = z := le_antisymm (not_lt.mp hzx) (not_lt.mp hxz)
            subst heq
            simp only [lt_irrefl, if_false]
            exact lexLe_trans h1 h2

theorem dateLe_trans {a b c : String} (h1 : dateLe a b = true) (h2 : dateLe b c = true) :
    dateLe a c = true :=
  lexLe_trans h1 h2

theorem dateLe_total (a b : String) : dateLe a b = true ∨ dateLe b a = true :=
  lexLe_total a.data b.data

theorem dateMin_le_right (a b : String) : dateLe (dateMin a b) b = true := by
  rw [dateMin]
  split
  · assumption
  · exact lexLe_refl _

theorem dateMax_ge_right (a b : String) : dateLe b (dateMax a b) = true := by
  rw [dateMax]
  split
  · exact lexLe_refl _
  · rename_i h
    rcases dateLe_total a b with h1 | h1
    · exact absurd h1 h
    · exact h1

theorem dateRange_holds_start {r : DateRange} {d : String} (h : r.holds d = true) :
    dateLe r.start d = true :=
  (Bool.and_eq_true_iff.mp h).1

theorem dateRange_holds_stop {r : DateRange} {d : String} (h : r.holds d = true) :
    dateLe d r.stop = true :=
  (Bool.and_eq_true_iff.mp h).2

/-- C5 counterexample: for the full requested range 2000-01-01..2025-12-31
the FX legacy clipped range ends at 2017-01-01 and the FX current clipped
range starts at 2017-01-01, so the two era request ranges are NOT
disjoint — they share the boundary date itself. -/
theorem c5_fx_overlap_counterexample : ¬fxErasDisjoint "2000-01-01" "2025-12-31" := by
  intro h
  exact h ⟨"2000-01-01", "2017-01-01"⟩ ⟨"2017-01-01", "2025-12-31"⟩
    (by decide) (by decide) "2017-01-01" (by decide) (by decide)

/-- C5 (amended): the Domain Adapters call the fetcher once per era with
date clipping at the 2017-01-01 boundary and concatenate the era tables
without deduplication, and an era whose clipped range is empty contributes
no rows; the two trade era ranges are disjoint (archived is clipped to
2016-12-31), but the two FX era ranges both contain the boundary date
2017-01-01 itself whenever the request spans it. -/
theorem c5_cross_era_stitching_amended :
    (∀ s e ra rb, archivedTradeRange s e = some ra → currentTradeRange s e = some rb →
        ∀ d : String, ra.holds d → rb.holds d → False)
    ∧ (∀ (Row : Type) (fA fC : DateRange → List Row) (s e : String),
        get_trade_rows fA fC s e
          = eraRows fA (archivedTradeRange s e) ++ eraRows fC (currentTradeRange s e))
    ∧ (∀ (Row : Type) (fL fC : DateRange → List Row) (s e : String),
        get_fx_rows fL fC s e
          = eraRows fL (legacyFxRange s e) ++ eraRows fC (currentFxRange s e))
    ∧ (∀ (Row : Type) (fL fC : DateRange → List Row) (s e : String),
        dateLe boundary2017 s = true →
        get_fx_rows fL fC s e = eraRows fC (currentFxRange s e))
    ∧ (∀ (Row : Type) (fA fC : DateRange → List Row) (s e : String),
        dateLt e boundary2017 = true →
        get_trade_rows fA fC s e = eraRows fA (archivedTradeRange s e))
    ∧ (∀ s e ra rb, legacyFxRange s e = some ra → currentFxRange s e = some rb →
        ra.holds boundary2017 ∧ rb.holds boundary2017) := by
  refine ⟨?_, fun _ _ _ _ _ => rfl, fun _ _ _ _ _ => rfl, ?_, ?_, ?_⟩
  · intro s e ra rb ha hb d hda hdb
    rw [archivedTradeRange] at ha
    split at ha
    · injection ha with ha
      subst ha
      rw [currentTradeRange] at hb
      split at hb
      · injection hb with hb
        subst hb
        have h1 : dateLe d "2016-12-31" = true :=
          dateLe_trans (dateRange_holds_stop hda) (dateMin_le_right e "2016-12-31")
        have h2 : dateLe boundary2017 d = true :=
          dateLe_trans (dateMax_ge_right s boundary2017) (dateRange_holds_start hdb)
        have h3 : dateLe boundary2017 "2016-12-31" = true := dateLe_trans h2 h1
        exact absurd h3 (by decide)
      · cases hb
    · cases ha
  · intro Row fL fC s e hs
    rw [get_fx_rows, legacyFxRange, if_pos hs]
    rfl
  · intro Row fA fC s e he
    rw [get_trade_rows, currentTradeRange]
    rw [dateLt] at he
    rw [if_neg (by simpa using he)]
    simp [eraRows]
  · intro s e ra rb ha hb
    rw [legacyFxRange] at ha
    rw [currentFxRange] at hb
    split at ha
    · cases ha
    · rename_i hsb
      injection ha with ha
      subst ha
      split at hb
      · cases hb
      · rename_i heb
        injection hb with hb
        subst hb
        have hsb' : dateLe s boundary2017 = true := by
          rcases dateLe_total boundary2017 s with h1 | h1
          · exact absurd h1 hsb
          · exact h1
        have heb' : dateLe boundary2017 e = true := by
          simpa [dateLt] using heb
        constructor
        · rw [DateRange.holds, Bool.and_eq_true_iff]
          refine ⟨hsb', ?_⟩
          rw [dateMin]
          split
          · exact heb'
          · exact lexLe_refl _
        · rw [DateRange.holds, Bool.and_eq_true_iff]
          refine ⟨?_, heb'⟩
          rw [dateMax, if_pos hsb']
          exact lexLe_refl _

/-- Witness for C5 (amended) at the full request range
2000-01-01..2025-12-31: the two trade era ranges exist and are disjoint,
and a request starting after the boundary draws only on the current FX
source. -/
theorem c5_cross_era_stitching_amended_witness :
    archivedTradeRange "2000-01-01" "2025-12-31" = some ⟨"2000-01-01", "2016-12-31"⟩
    ∧ currentTradeRange "2000-01-01" "2025-12-31" = some ⟨"2017-01-01", "2025-12-31"⟩
    ∧ (∀ d : String, DateRange.holds ⟨"2000-01-01", "2016-12-31"⟩ d →
        DateRange.holds ⟨"2017-01-01", "2025-12-31"⟩ d → False)
    ∧ get_fx_rows (fun _ => [(1 : Nat)]) (fun _ => [2]) "2020-01-01" "2025-12-31" = [2]
    ∧ get_trade_rows (fun _ => [(1 : Nat)]) (fun _ => [2]) "2000-01-01" "2015-06-30" = [1] := by
  have h := c5_cross_era_stitching_amended
  refine ⟨by decide, by decide, ?_, ?_, ?_⟩
  · exact h.1 "2000-01-01" "2025-12-31" _ _ (by decide) (by decide)
  · rw [h.2.2.2.1 Nat (fun _ => [1]) (fun _ => [2]) "2020-01-01" "2025-12-31" (by decide)]
    decide
  · rw [h.2.2.2.2.1 Nat (fun _ => [1]) (fun _ => [2]) "2000-01-01" "2015-06-30" (by decide)]
    decide

/-- C6 counterexample: two raw rows collapsing into one pivot cell (values
1 and 3) yield the first value 1 under `pivot_column`'s default
`aggfunc="first"`, not their arithmetic mean 2. -/
theorem c6_pivot_first_counterexample :
    pivotCellFirst exPivotRows "Canada" "2020-01" "Gasoline" = some 1
    ∧ meanOf (collapsedValues exPivotRows "Canada" "2020-01" "Gasoline") = 2
    ∧ pivotCellFirst exPivotRows "Canada" "2020-01" "Gasoline"
        ≠ some (meanOf (collapsedValues exPivotRows "Canada" "2020-01" "Gasoline")) := by
  have hcv : collapsedValues exPivotRows "Canada" "2020-01" "Gasoline" = [1, 3] := by
    decide
  have hmean : meanOf (collapsedValues exPivotRows "Canada" "2020-01" "Gasoline") = 2 := by
    rw [hcv, meanOf]
    norm_num
  rw [hcv] at hmean
  refine ⟨by rw [pivotCellFirst, hcv]; rfl, by rw [hcv]; exact hmean, ?_⟩
  rw [pivotCellFirst, hcv, hmean]
  intro h
  injection h with h
  exact absurd h (by norm_num)

/-- C6 (amended): a collapse at the pivot stage keeps the FIRST collapsed
value (pandas `aggfunc="first"`), while the fuel-price adapter's later
per-date collapse across geographies aggregates with the arithmetic mean
(`sum / count`, which on constant groups returns that constant). -/
theorem c6_aggregation_amended :
    (∀ (pre post : List PivotRow) (r : PivotRow),
        (∀ q ∈ pre, ¬(q.geo = r.geo ∧ q.refDate = r.refDate ∧ q.colLabel = r.colLabel)) →
        pivotCellFirst (pre ++ r :: post) r.geo r.refDate r.colLabel = some r.value)
    ∧ (∀ (rows : List PivotRow) (g d c : String),
        pivotCellFirst rows g d c = (collapsedValues rows g d c).head?)
    ∧ (∀ (rows : List FuelWideRow) (d : String) (vs : List Rat),
        (rows.filter (fun q => q.date = d)).map (fun q => q.gasoline) = vs.map some →
        vs ≠ [] → (fuelDateAgg rows d).1 = some (vs.sum / vs.length))
    ∧ (∀ (n : Nat) (v : Rat), n ≠ 0 → meanOf (List.replicate n v) = v) := by
  refine ⟨?_, fun _ _ _ _ => rfl, ?_, ?_⟩
  · intro pre post r hpre
    rw [pivotCellFirst, collapsedValues, List.filter_append]
    rw [List.filter_eq_nil_iff.mpr (fun a ha => by simpa using hpre a ha)]
    rw [List.filter_cons_of_pos (by simp)]
    simp
  · intro rows d vs hmap hne
    have hsome : (vs.map some).filterMap id = vs := by
      simp [List.filterMap_map]
    simp only [fuelDateAgg]
    rw [hmap, meanAggOpt, hsome, if_neg hne, meanOf]
  · intro n v hn
    have hn' : (n : Rat) ≠ 0 := Nat.cast_ne_zero.mpr hn
    rw [meanOf, List.sum_replicate, List.length_replicate, nsmul_eq_mul,
      mul_div_cancel_left₀ v hn']

/-- Witness for C6 (amended): a collapse of (5, 9) under the pivot yields
5; the fuel mean of 5 and 9 across two geographies is 7. -/
theorem c6_aggregation_amended_witness :
    pivotCellFirst [⟨"Quebec", "2020-01", "Gasoline", 5⟩,
        ⟨"Quebec", "2020-01", "Gasoline", 9⟩] "Quebec" "2020-01" "Gasoline" = some 5
    ∧ (fuelDateAgg [⟨"Quebec", "2020-01", some 5, none⟩,
        ⟨"Ontario", "2020-01", some 9, none⟩] "2020-01").1 = some 7
    ∧ meanOf (List.replicate 3 (4 : Rat)) = 4 := by
  have h := c6_aggregation_amended
  refine ⟨?_, ?_, h.2.2.2 3 4 (by decide)⟩
  · have := h.1 [] [⟨"Quebec", "2020-01", "Gasoline", 9⟩]
      ⟨"Quebec", "2020-01", "Gasoline", 5⟩ (by rintro q ⟨⟩)
    simpa using this
  · have := h.2.2.1 [⟨"Quebec", "2020-01", some 5, none⟩,
        ⟨"Ontario", "2020-01", some 9, none⟩] "2020-01" [5, 9] (by decide) (by decide)
    rw [this]
    norm_num

/-- Only lowercase comes out of the ASCII lowercasing step. -/
theorem pyLower_not_upper (c : Char) : (pyLower c).isUpper = false := by
  rw [pyLower]
  split
  · rename_i hc
    simp only [Char.isUpper, ge_iff_le, Bool.and_eq_true, decide_eq_true_eq] at hc
    obtain ⟨h1, h2⟩ := hc
    have hn1 : 65 ≤ c.toNat := UInt32.le_toNat_of_le (by decide) h1
    have hn2 : c.toNat ≤ 90 := UInt32.toNat_le_of_le (by decide) h2
    have key : ∀ m, m < 91 → 65 ≤ m → (Char.ofNat (m + 32)).isUpper = false := by decide
    exact key c.toNat (by omega) hn1
  · rename_i hc
    simpa using hc

theorem subWsAux_chars (l : List Char) :
    ∀ b : Bool, (∀ c ∈ l, c.isUpper = false) →
      ∀ c ∈ subWsAux b l, c.isUpper = false ∧ pyWs c = false := by
  induction l with
  | nil =>
    intro b _ c hc
    cases hc
  | cons x xs ih =>
    intro b hl c hc
    rw [subWsAux] at hc
    split at hc
    · rename_i hx
      split at hc
      · exact ih _ (fun c h => hl c (List.mem_cons_of_mem _ h)) c hc
      · rcases List.mem_cons.mp hc with rfl | hmem
        · exact ⟨by decide, by decide⟩
        · exact ih _ (fun c h => hl c (List.mem_cons_of_mem _ h)) c hmem
    · rename_i hx
      rcases List.mem_cons.mp hc with rfl | hmem
      · exact ⟨hl c (List.mem_cons_self _ _), by simpa using hx⟩
      · exact ih _ (fun c h => hl c (List.mem_cons_of_mem _ h)) c hmem

/-- C9 counterexample: the FX adapter's output columns include
`"usd/cad"` — lowercased, but still containing the separator `/`, so the
claimed "no other separator characters remain" fails. -/
theorem c9_separator_preserved_counterexample :
    fxOutputCols FX_CODES_legacy ["date", "IEXM0102_AVG", "EUROCAM01"]
      = ["date", "usd/cad", "eur/cad"]
    ∧ ¬claimedNormalized "usd/cad" := by
  refine ⟨by decide, ?_⟩
  intro h
  exact (h '/' (by decide)).2.2 (by decide)

/-- C9 (amended): column normalization is applied as the adapters' last
step and yields names with no uppercase ASCII letter and no whitespace
(runs of whitespace become one underscore) — but non-whitespace separator
characters such as `/` are preserved, as in `"USD/CAD" → "usd/cad"`. -/
theorem c9_snake_case_amended :
    (∀ s : String, ∀ c ∈ (to_snake_case s).data, c.isUpper = false ∧ pyWs c = false)
    ∧ (∀ (codes : List (String × String)) (rawCols : List String),
        fxOutputCols codes rawCols = (renameCols codes rawCols).map to_snake_case)
    ∧ to_snake_case "Gasoline price" = "gasoline_price"
    ∧ to_snake_case "USD/CAD" = "usd/cad" := by
  refine ⟨?_, fun _ _ => rfl, by decide, by decide⟩
  intro s c hc
  refine subWsAux_chars (s.data.map pyLower) false ?_ c hc
  intro c' hc'
  obtain ⟨c0, _, rfl⟩ := List.mem_map.mp hc'
  exact pyLower_not_upper c0

/-- Witness for C9 (amended): evaluating the normalization property on the
concrete column name rendered from `"USD/CAD"`. -/
theorem c9_snake_case_amended_witness :
    'u' ∈ (to_snake_case "USD/CAD").data
    ∧ ('u'.isUpper = false ∧ pyWs 'u' = false) :=
  ⟨by decide, c9_snake_case_amended.1 "USD/CAD" 'u' (by decide)⟩

end FoodPrice
